import Mathlib

/-!
Shallow embedding of the Risk-Analysis computational core (risk_core.py):
three estimators (normalized Shannon entropy, normalized lagged mutual
information, Hurst exponent via rescaled-range analysis) and the threshold
risk classifier, together with theorems settling the specification claims.

Modelling conventions: Python floats become real numbers; NaN-valued scores
become Option ℝ with none playing the role of NaN (NaN threshold comparisons
are false, so comparisons on Option ℝ are false at none); a numpy ValueError
escaping an estimator becomes an Except Unit error value; the module-level
random draws consumed by the zero-variance jitter become an explicit stream
of real numbers passed in as an argument.
-/

open scoped Classical

noncomputable section

namespace RiskAnalysis

/-- Minimum of a list of reals (np.min); junk value 0 on the empty list. -/
def listMin : List ℝ → ℝ
  | [] => 0
  | v :: t => t.foldl min v

/-- Maximum of a list of reals (np.max); junk value 0 on the empty list. -/
def listMax : List ℝ → ℝ
  | [] => 0
  | v :: t => t.foldl max v

/-- Arithmetic mean (np.mean); the empty list gives the junk value 0/0 = 0. -/
def meanR (x : List ℝ) : ℝ := x.sum / x.length

/-- Population variance (np.var, ddof = 0). -/
def varR (x : List ℝ) : ℝ := ((x.map (fun v => (v - meanR x) ^ 2)).sum) / x.length

/-- Population standard deviation (np.std, ddof = 0). -/
def stdR (x : List ℝ) : ℝ := Real.sqrt (varR x)

/-- Histogram range selection of np.histogram: the observed data range,
widened to (v - 0.5, v + 0.5) when the observed range is a single point. -/
def histEdges (xs : List ℝ) : ℝ × ℝ :=
  if listMin xs = listMax xs then (listMin xs - 1/2, listMin xs + 1/2)
  else (listMin xs, listMax xs)

/-- Equal-width bin index of a value (np.histogram): bin k covers the
half-open k-th subinterval of [lo, hi], except that the rightmost bin is
closed, which the clamp to bins - 1 realizes.  All inputs the module bins
lie inside [lo, hi], so every value receives a bin. -/
def binIndex (lo hi : ℝ) (bins : ℕ) (v : ℝ) : ℕ :=
  min (Int.toNat ⌊(v - lo) / (hi - lo) * bins⌋) (bins - 1)

/-- Bin occupancy counts of np.histogram with the automatic range. -/
def histogram (xs : List ℝ) (bins : ℕ) : List ℕ :=
  (List.range bins).map (fun k =>
    (xs.filter (fun v => binIndex (histEdges xs).1 (histEdges xs).2 bins v = k)).length)

/-- Row-major raveled counts of the 2-D joint histogram np.histogram2d,
each axis binned over its own observed range with the same bin count. -/
def histogram2d (xs ys : List ℝ) (bins : ℕ) : List ℕ :=
  ((List.range bins).map (fun j =>
    (List.range bins).map (fun k =>
      ((xs.zip ys).filter (fun p =>
        binIndex (histEdges xs).1 (histEdges xs).2 bins p.1 = j ∧
        binIndex (histEdges ys).1 (histEdges ys).2 bins p.2 = k)).length))).flatten

/-- Raw Shannon entropy in bits of a count vector (the helper H of the
source): p = counts / total, zero-count entries dropped to avoid log 0,
H = -sum of p * log2 p. -/
def Hcount (cs : List ℕ) : ℝ :=
  -(cs.map (fun c : ℕ =>
      if 0 < c then ((c : ℝ) / ((cs.sum : ℕ) : ℝ)) * Real.logb 2 ((c : ℝ) / ((cs.sum : ℕ) : ℝ))
      else 0)).sum

/-- Element-wise jitter applied to a numerically constant sample
(x + 1e-12 * np.random.randn(*x.shape)); the random draws are supplied as
the explicit stream noise, consumed from index i on. -/
def addNoise (noise : ℕ → ℝ) : ℕ → List ℝ → List ℝ
  | _, [] => []
  | i, v :: t => (v + 1e-12 * noise i) :: addNoise noise (i + 1) t

/-- Normalized Shannon entropy of a binned sample (_shannon_entropy of the
source).  The zero-variance test is np.allclose(np.std(x), 0), i.e.
std <= 1e-8.  The error value models the ValueError np.histogram raises
when the requested bin count is not positive; the inner none models the
NaN returned when the normalization denominator log2(bins) is not
positive. -/
def _shannon_entropy (noise : ℕ → ℝ) (x : List ℝ) (bins : ℕ) (normalize : Bool) :
    Except Unit (Option ℝ) :=
  let x1 := if stdR x ≤ 1e-8 then addNoise noise 0 x else x
  if bins = 0 then .error () else
  let counts := histogram x1 bins
  let H := Hcount counts
  if normalize then
    if 0 < Real.logb 2 ((counts.length : ℕ) : ℝ) then
      .ok (some (H / Real.logb 2 ((counts.length : ℕ) : ℝ)))
    else .ok none
  else .ok (some H)

/-- Normalized mutual information (_mutual_information_norm of the source):
MI = H(x) + H(y) - H(x, y) over the marginal and joint histogram counts,
divided by H(x).  The error value models the ValueError raised by
np.histogram for a non-positive bin count and by np.histogram2d for
samples of different lengths; the inner none models the NaN returned when
H(x) is not positive. -/
def _mutual_information_norm (x y : List ℝ) (bins : ℕ) : Except Unit (Option ℝ) :=
  if bins = 0 ∨ x.length ≠ y.length then .error () else
  let Hx := Hcount (histogram x bins)
  let Hy := Hcount (histogram y bins)
  let Hxy := Hcount (histogram2d x y bins)
  if 0 < Hx then .ok (some ((Hx + Hy - Hxy) / Hx)) else .ok none

/-- Mutual information as the specification words it (spec 4.2): the raw
base-2 entropies of the marginal and joint equal-width histograms combined
as (H(x) + H(y) - H(x,y)) / H(x), undefined (NaN, here none) when
H(x) = 0.  Second definition kept for comparison with the source
definition above. -/
def mutualInformationSpec (x y : List ℝ) (bins : ℕ) : Option ℝ :=
  if Hcount (histogram x bins) = 0 then none
  else some ((Hcount (histogram x bins) + Hcount (histogram y bins) -
      Hcount (histogram2d x y bins)) / Hcount (histogram x bins))

/-- The 10 candidate window sizes of the R/S loop:
np.floor(np.logspace(log10(min_window), log10(N // 2), num = 10)).astype(int). -/
def hurstSizes (minw N : ℕ) : List ℤ :=
  (List.range 10).map (fun i : ℕ =>
    ⌊(10 : ℝ) ^ (Real.logb 10 (minw : ℝ) +
        (i : ℝ) / 9 * (Real.logb 10 ((N / 2 : ℕ) : ℝ) - Real.logb 10 (minw : ℝ)))⌋)

/-- The window sizes the R/S loop actually processes: candidates of size
below 2 are skipped by the continue; no deduplication is performed. -/
def usedSizes (minw N : ℕ) : List ℤ :=
  (hurstSizes minw N).filter (fun w => 2 ≤ w)

/-- Non-overlapping contiguous length-w segments, trailing remainder
dropped (the loop over range(N // w)). -/
def segments (x : List ℝ) (w : ℕ) : List (List ℝ) :=
  (List.range (x.length / w)).map (fun i => ((x.drop (i * w)).take w))

/-- Cumulative sums, np.cumsum. -/
def cumsum (l : List ℝ) : List ℝ :=
  (List.range l.length).map (fun i => (l.take (i + 1)).sum)

/-- Rescaled range R/S of one segment: the range of the cumulative
mean-centered sums divided by the segment standard deviation. -/
def segRS (seg : List ℝ) : ℝ :=
  (listMax (cumsum (seg.map (fun v => v - meanR seg))) -
    listMin (cumsum (seg.map (fun v => v - meanR seg)))) / stdR seg

/-- The valid R/S values at window w: segments whose standard deviation is
zero are skipped. -/
def rsVals (xc : List ℝ) (w : ℕ) : List ℝ :=
  (segments xc w).filterMap (fun seg =>
    if 0 < stdR seg then some (segRS seg) else none)

/-- Mean-centered copy of the sample (x - np.mean(x)). -/
def center (x : List ℝ) : List ℝ := x.map (fun v => v - meanR x)

/-- The (window, mean R/S) pairs the loop retains: one pair per processed
window that produced at least one valid segment. -/
def rsPairs (x : List ℝ) (minw : ℕ) : List (ℤ × ℝ) :=
  (usedSizes minw x.length).filterMap (fun w =>
    if rsVals (center x) w.toNat = [] then none
    else some (w, (rsVals (center x) w.toNat).sum / ((rsVals (center x) w.toNat).length : ℝ)))

/-- Least-squares straight-line slope of a point cloud (np.polyfit at
degree 1). -/
def fitSlope (pts : List (ℝ × ℝ)) : ℝ :=
  ((pts.length : ℝ) * (pts.map (fun p => p.1 * p.2)).sum -
      (pts.map Prod.fst).sum * (pts.map Prod.snd).sum) /
    ((pts.length : ℝ) * (pts.map (fun p => p.1 * p.1)).sum -
      (pts.map Prod.fst).sum * (pts.map Prod.fst).sum)

/-- Hurst exponent by rescaled-range analysis (_hurst_exponent_rs of the
source); none models the NaN returned when no window yields a valid R/S
value. -/
def _hurst_exponent_rs (x : List ℝ) (minw : ℕ) : Option ℝ :=
  if rsPairs x minw = [] then none
  else some (fitSlope ((rsPairs x minw).map
    (fun p => (Real.log ((p.1 : ℤ) : ℝ), Real.log p.2))))

/-- Python slice returns[:-lag]: empty for lag = 0 (the slice [:0]), else
the list without its last lag elements. -/
def sliceToNeg (r : List ℝ) (lag : ℕ) : List ℝ :=
  if lag = 0 then [] else r.take (r.length - lag)

/-- NaN-aware strict greater-than of a possibly-NaN score against a constant:
false whenever the score is NaN, exactly as a float comparison. -/
def nanGT (a : Option ℝ) (c : ℝ) : Prop := ∃ v, a = some v ∧ c < v

/-- NaN-aware strict less-than of a possibly-NaN score against a constant:
false whenever the score is NaN. -/
def nanLT (a : Option ℝ) (c : ℝ) : Prop := ∃ v, a = some v ∧ v < c

/-- The first-match-wins threshold classifier from the tail of
detect_risk_factors, as a function of the three scores (entropy, mutual
information, hurst). -/
def riskFlagOf (entropy mi hurst : Option ℝ) : String :=
  if nanGT hurst 0.5 ∧ nanGT entropy 0.9 ∧ nanLT mi 0.05 then "structural_time_bomb"
  else if nanGT hurst 0.5 ∧ nanGT entropy 0.9 then "chaotic_memory"
  else if nanLT mi 0.05 then "blocked_flow"
  else "latent"

/-- The result record of detect_risk_factors. -/
structure RiskResult where
  entropy : Option ℝ
  mi_norm : Option ℝ
  hurst : Option ℝ
  risk_flag : String

/-- The single entry point detect_risk_factors(returns, bins = 30,
mi_lag = 1).  Its only configuration parameters are the bin count and the
mutual-information lag; the Hurst estimator is invoked with its default
minimum window of 16.  The outer none models an uncaught estimator
exception escaping the call. -/
def detect_risk_factors (noise : ℕ → ℝ) (returns : List ℝ) (bins mi_lag : ℕ) :
    Option RiskResult :=
  match _shannon_entropy noise returns bins true,
      _mutual_information_norm (returns.drop mi_lag) (sliceToNeg returns mi_lag) bins with
  | .ok e, .ok m =>
      some ⟨e, m, _hurst_exponent_rs returns 16,
        riskFlagOf e m (_hurst_exponent_rs returns 16)⟩
  | _, _ => none

lemma nanGT_some (v c : ℝ) : nanGT (some v) c ↔ c < v := by
  simp [nanGT]

lemma nanLT_some (v c : ℝ) : nanLT (some v) c ↔ v < c := by
  simp [nanLT]

lemma nanGT_none (c : ℝ) : ¬ nanGT none c := by
  simp [nanGT]

lemma nanLT_none (c : ℝ) : ¬ nanLT none c := by
  simp [nanLT]

lemma list_sum_map_add {α M : Type*} [AddCommMonoid M] (l : List α) (f g : α → M) :
    (l.map (fun a => f a + g a)).sum = (l.map f).sum + (l.map g).sum := by
  induction l with
  | nil => simp
  | cons a t ih => simp [ih, add_add_add_comm]

lemma list_sum_map_neg {α : Type*} (l : List α) (f : α → ℝ) :
    (l.map (fun a => -(f a))).sum = -((l.map f).sum) := by
  induction l with
  | nil => simp
  | cons a t ih => simp [ih]; ring

lemma list_sum_map_mul_right {α : Type*} (l : List α) (f : α → ℝ) (r : ℝ) :
    (l.map (fun a => f a * r)).sum = ((l.map f).sum) * r := by
  induction l with
  | nil => simp
  | cons a t ih => simp [ih]; ring

lemma list_sum_map_const {α : Type*} (l : List α) (r : ℝ) :
    (l.map (fun _ => r)).sum = (l.length : ℝ) * r := by
  induction l with
  | nil => simp
  | cons a t ih => simp [ih]; ring

lemma addNoise_length (noise : ℕ → ℝ) (i : ℕ) (x : List ℝ) :
    (addNoise noise i x).length = x.length := by
  induction x generalizing i with
  | nil => rfl
  | cons v t ih => simp [addNoise, ih]

lemma histogram_length (xs : List ℝ) (bins : ℕ) : (histogram xs bins).length = bins := by
  simp [histogram]

lemma binIndex_lt (lo hi v : ℝ) {bins : ℕ} (hb : 0 < bins) :
    binIndex lo hi bins v < bins := by
  unfold binIndex
  omega

lemma sum_range_ite (n j : ℕ) (hj : j < n) :
    ((List.range n).map (fun k => if j = k then 1 else 0)).sum = 1 := by
  induction n with
  | zero => omega
  | succ n ih =>
    rw [List.range_succ, List.map_append, List.sum_append]
    rcases Nat.lt_succ_iff_lt_or_eq.mp hj with h | h
    · rw [ih h]
      simp [Nat.ne_of_lt h]
    · subst h
      have hz : ((List.range j).map (fun k => if j = k then 1 else 0)).sum = 0 := by
        apply List.sum_eq_zero
        intro u hu
        simp only [List.mem_map, List.mem_range] at hu
        obtain ⟨k, hk, rfl⟩ := hu
        simp [Nat.ne_of_gt hk]
      simp [hz]

lemma countP_partition (f : ℝ → ℕ) (n : ℕ) (xs : List ℝ) (hf : ∀ v ∈ xs, f v < n) :
    ((List.range n).map (fun k => xs.countP (fun v => f v = k))).sum = xs.length := by
  induction xs with
  | nil => simp
  | cons v t ih =>
    have hv : f v < n := hf v (by simp)
    have ht : ∀ u ∈ t, f u < n := fun u hu => hf u (by simp [hu])
    simp only [List.countP_cons, decide_eq_true_eq]
    rw [list_sum_map_add, ih ht, sum_range_ite n (f v) hv, List.length_cons]

lemma histogram_sum (xs : List ℝ) {bins : ℕ} (hb : 0 < bins) :
    (histogram xs bins).sum = xs.length := by
  unfold histogram
  simp only [← List.countP_eq_length_filter]
  exact countP_partition _ bins xs (fun v _ => binIndex_lt _ _ v hb)

lemma mem_le_sum_nat {cs : List ℕ} {c : ℕ} (hc : c ∈ cs) : c ≤ cs.sum := by
  induction cs with
  | nil => simp at hc
  | cons a t ih =>
    rw [List.sum_cons]
    rcases List.mem_cons.mp hc with rfl | h
    · exact Nat.le_add_right _ _
    · exact (ih h).trans (Nat.le_add_left _ _)

lemma list_sum_map_sub {α : Type*} (l : List α) (f g : α → ℝ) :
    (l.map (fun a => f a - g a)).sum = (l.map f).sum - (l.map g).sum := by
  induction l with
  | nil => simp
  | cons a t ih => simp [ih]; ring

lemma list_sum_map_div (l : List ℕ) (r : ℝ) :
    (l.map (fun c : ℕ => (c : ℝ) / r)).sum = ((l.sum : ℕ) : ℝ) / r := by
  induction l with
  | nil => simp
  | cons a t ih => simp [ih, add_div]

lemma Hcount_nonneg (cs : List ℕ) : 0 ≤ Hcount cs := by
  unfold Hcount
  rw [neg_nonneg]
  have h0 : ((cs.map (fun _ : ℕ => (0:ℝ))).sum) = 0 := by
    rw [list_sum_map_const]
    ring
  refine le_of_le_of_eq (List.sum_le_sum ?_) h0
  intro c hc
  by_cases h : 0 < c
  · rw [if_pos h]
    rcases Nat.eq_zero_or_pos cs.sum with hT | hT
    · have := mem_le_sum_nat hc
      omega
    · have hTR : (0:ℝ) < ((cs.sum : ℕ) : ℝ) := by exact_mod_cast hT
      have hp0 : (0:ℝ) ≤ (c : ℝ) / ((cs.sum : ℕ) : ℝ) :=
        div_nonneg (by positivity) hTR.le
      have hp1 : (c : ℝ) / ((cs.sum : ℕ) : ℝ) ≤ 1 := by
        rw [div_le_one hTR]
        exact_mod_cast mem_le_sum_nat hc
      exact mul_nonpos_iff.mpr (Or.inl ⟨hp0,
        Real.logb_nonpos (by norm_num) hp0 hp1⟩)
  · rw [if_neg h]

lemma Hcount_le_logb_length (cs : List ℕ) (hT : 0 < cs.sum) :
    Hcount cs ≤ Real.logb 2 ((cs.length : ℕ) : ℝ) := by
  have hlog2 : (0:ℝ) < Real.log 2 := Real.log_pos (by norm_num)
  have hn : 0 < cs.length := by
    rcases cs with _ | ⟨a, t⟩
    · simp at hT
    · simp
  have hnR : (0:ℝ) < ((cs.length : ℕ) : ℝ) := by exact_mod_cast hn
  have hTR : (0:ℝ) < ((cs.sum : ℕ) : ℝ) := by exact_mod_cast hT
  unfold Hcount
  rw [Real.logb, le_div_iff₀ hlog2, neg_mul, ← list_sum_map_mul_right, ← list_sum_map_neg]
  have key : ∀ c ∈ cs,
      -((if 0 < c then ((c : ℝ) / ((cs.sum : ℕ) : ℝ)) *
            Real.logb 2 ((c : ℝ) / ((cs.sum : ℕ) : ℝ)) else 0) * Real.log 2)
        ≤ ((c : ℝ) / ((cs.sum : ℕ) : ℝ)) * Real.log ((cs.length : ℕ) : ℝ) +
          (1 / ((cs.length : ℕ) : ℝ) - (c : ℝ) / ((cs.sum : ℕ) : ℝ)) := by
    intro c _
    set T : ℝ := ((cs.sum : ℕ) : ℝ)
    set n : ℝ := ((cs.length : ℕ) : ℝ)
    by_cases h : 0 < c
    · rw [if_pos h]
      have hcR : (0:ℝ) < (c : ℝ) := by exact_mod_cast h
      have hp : (0:ℝ) < (c : ℝ) / T := div_pos hcR hTR
      have hlogb : ((c : ℝ) / T) * Real.logb 2 ((c : ℝ) / T) * Real.log 2
          = ((c : ℝ) / T) * Real.log ((c : ℝ) / T) := by
        rw [Real.logb]
        field_simp
        ring
      rw [hlogb]
      have harg : (0:ℝ) < T / ((c : ℝ) * n) := by positivity
      have hle : Real.log (T / ((c : ℝ) * n)) ≤ T / ((c : ℝ) * n) - 1 :=
        Real.log_le_sub_one_of_pos harg
      have hlogeq : Real.log (T / ((c : ℝ) * n)) =
          -Real.log ((c : ℝ) / T) - Real.log n := by
        rw [Real.log_div hTR.ne' (by positivity), Real.log_mul hcR.ne' hnR.ne',
          Real.log_div hcR.ne' hTR.ne']
        ring
      have hmul := mul_le_mul_of_nonneg_left hle hp.le
      rw [hlogeq] at hmul
      have hsimp : ((c : ℝ) / T) * (T / ((c : ℝ) * n) - 1) = 1 / n - (c : ℝ) / T := by
        field_simp
        ring
      rw [hsimp] at hmul
      nlinarith [hmul]
    · rw [if_neg h]
      have hc0 : (c : ℝ) = 0 := by exact_mod_cast Nat.eq_zero_of_not_pos h
      rw [hc0]
      have h1n : (0:ℝ) ≤ 1 / n := by positivity
      simpa using h1n
  refine le_of_le_of_eq (List.sum_le_sum key) ?_
  have hadd := list_sum_map_add cs
    (fun c : ℕ => ((c : ℝ) / ((cs.sum : ℕ) : ℝ)) * Real.log ((cs.length : ℕ) : ℝ))
    (fun c : ℕ => 1 / ((cs.length : ℕ) : ℝ) - (c : ℝ) / ((cs.sum : ℕ) : ℝ))
  rw [hadd]
  have h1 : (cs.map (fun c : ℕ =>
      ((c : ℝ) / ((cs.sum : ℕ) : ℝ)) * Real.log ((cs.length : ℕ) : ℝ))).sum
      = Real.log ((cs.length : ℕ) : ℝ) := by
    have hmr := list_sum_map_mul_right cs
      (fun c : ℕ => (c : ℝ) / ((cs.sum : ℕ) : ℝ)) (Real.log ((cs.length : ℕ) : ℝ))
    rw [hmr, list_sum_map_div, div_self hTR.ne', one_mul]
  have h2 : (cs.map (fun c : ℕ =>
      1 / ((cs.length : ℕ) : ℝ) - (c : ℝ) / ((cs.sum : ℕ) : ℝ))).sum = 0 := by
    have hsub := list_sum_map_sub cs
      (fun _ : ℕ => 1 / ((cs.length : ℕ) : ℝ))
      (fun c : ℕ => (c : ℝ) / ((cs.sum : ℕ) : ℝ))
    rw [hsub, list_sum_map_const, list_sum_map_div, div_self hTR.ne',
      mul_one_div, div_self hnR.ne']
    ring
  rw [h1, h2, add_zero]

/-- C1: for every triple of (non-NaN) real scores the classifier assigns
exactly one label, decided first-match-wins with strict comparisons
(hurst > 0.5 and entropy > 0.9 and mi < 0.05 gives structural_time_bomb,
else hurst > 0.5 and entropy > 0.9 gives chaotic_memory, else mi < 0.05
gives blocked_flow, else latent), and on the three concrete triples of the
claim it yields structural_time_bomb, blocked_flow and latent. -/
theorem claim_C1 :
    (∀ e m h : ℝ,
      (riskFlagOf (some e) (some m) (some h) = "structural_time_bomb" ↔
        0.5 < h ∧ 0.9 < e ∧ m < 0.05) ∧
      (riskFlagOf (some e) (some m) (some h) = "chaotic_memory" ↔
        0.5 < h ∧ 0.9 < e ∧ ¬ m < 0.05) ∧
      (riskFlagOf (some e) (some m) (some h) = "blocked_flow" ↔
        ¬ (0.5 < h ∧ 0.9 < e) ∧ m < 0.05) ∧
      (riskFlagOf (some e) (some m) (some h) = "latent" ↔
        ¬ (0.5 < h ∧ 0.9 < e) ∧ ¬ m < 0.05)) ∧
    riskFlagOf (some 0.95) (some 0.01) (some 0.6) = "structural_time_bomb" ∧
    riskFlagOf (some 0.95) (some 0.01) (some 0.4) = "blocked_flow" ∧
    riskFlagOf (some 0.2) (some 0.3) (some 0.2) = "latent" := by
  have key : ∀ e m h : ℝ,
      (riskFlagOf (some e) (some m) (some h) = "structural_time_bomb" ↔
        0.5 < h ∧ 0.9 < e ∧ m < 0.05) ∧
      (riskFlagOf (some e) (some m) (some h) = "chaotic_memory" ↔
        0.5 < h ∧ 0.9 < e ∧ ¬ m < 0.05) ∧
      (riskFlagOf (some e) (some m) (some h) = "blocked_flow" ↔
        ¬ (0.5 < h ∧ 0.9 < e) ∧ m < 0.05) ∧
      (riskFlagOf (some e) (some m) (some h) = "latent" ↔
        ¬ (0.5 < h ∧ 0.9 < e) ∧ ¬ m < 0.05) := by
    intro e m h
    unfold riskFlagOf
    simp only [nanGT_some, nanLT_some]
    split_ifs with h1 h2 h3 <;>
      refine ⟨?_, ?_, ?_, ?_⟩ <;> simp_all
  refine ⟨key, ?_, ?_, ?_⟩
  · exact (key 0.95 0.01 0.6).1.mpr (by norm_num)
  · exact (key 0.95 0.01 0.4).2.2.1.mpr (by norm_num)
  · exact (key 0.2 0.3 0.2).2.2.2.mpr (by norm_num)

/-- C1 witness: the characterization instantiated at the first concrete
triple of the claim. -/
theorem claim_C1_witness :
    riskFlagOf (some 0.95) (some 0.01) (some 0.6) = "structural_time_bomb" :=
  claim_C1.2.1

/-- C2: the classifier is total including NaN scores: a NaN score satisfies
no threshold comparison, so a NaN entropy rules out the two entropy-guarded
labels, a NaN mutual information rules out the two mi-guarded labels, a NaN
hurst rules out the two hurst-guarded labels, and three NaN scores fall
through to latent; no input is an error. -/
theorem claim_C2 :
    (∀ c : ℝ, ¬ nanGT none c ∧ ¬ nanLT none c) ∧
    (∀ m h : Option ℝ, riskFlagOf none m h = "latent" ∨
      riskFlagOf none m h = "blocked_flow") ∧
    (∀ e h : Option ℝ, riskFlagOf e none h = "latent" ∨
      riskFlagOf e none h = "chaotic_memory") ∧
    (∀ e m : Option ℝ, riskFlagOf e m none = "latent" ∨
      riskFlagOf e m none = "blocked_flow") ∧
    riskFlagOf none none none = "latent" := by
  refine ⟨fun c => ⟨nanGT_none c, nanLT_none c⟩, ?_, ?_, ?_, ?_⟩
  · intro m h
    unfold riskFlagOf
    split_ifs with h1 h2 h3 <;> simp_all [nanGT_none]
  · intro e h
    unfold riskFlagOf
    split_ifs with h1 h2 h3 <;> simp_all [nanLT_none]
  · intro e m
    unfold riskFlagOf
    split_ifs with h1 h2 h3 <;> simp_all [nanGT_none]
  · unfold riskFlagOf
    split_ifs with h1 h2 h3 <;> simp_all [nanGT_none, nanLT_none]

/-- C2 witness: the all-NaN record classifies as latent. -/
theorem claim_C2_witness : riskFlagOf none none none = "latent" :=
  claim_C2.2.2.2.2

/-- C3: with the default 30 bins and normalization on, the entropy
estimator of any sample of length at least 2 returns a value in [0, 1]
and raises no error, whichever of the direct and the noise-injection
paths is taken (the statement quantifies over every noise stream, hence
covers both). -/
theorem claim_C3 (x : List ℝ) (noise : ℕ → ℝ) (hx : 2 ≤ x.length) :
    ∃ h : ℝ, _shannon_entropy noise x 30 true = .ok (some h) ∧ 0 ≤ h ∧ h ≤ 1 := by
  simp only [_shannon_entropy]
  set x1 := if stdR x ≤ 1e-8 then addNoise noise 0 x else x with hx1
  have hlen : x1.length = x.length := by
    rw [hx1]
    split_ifs with hs
    · exact addNoise_length noise 0 x
    · rfl
  rw [if_true]
  have hclen : (histogram x1 30).length = 30 := histogram_length x1 30
  rw [hclen]
  have hpos : 0 < Real.logb 2 (((30 : ℕ) : ℕ) : ℝ) := by
    apply Real.logb_pos (by norm_num)
    norm_num
  rw [if_pos hpos]
  refine ⟨_, rfl, ?_, ?_⟩
  · exact div_nonneg (Hcount_nonneg _) hpos.le
  · rw [div_le_one hpos]
    have hsum : 0 < (histogram x1 30).sum := by
      rw [histogram_sum x1 (by norm_num)]
      omega
    have := Hcount_le_logb_length (histogram x1 30) hsum
    rwa [hclen] at this

/-- C3 witness: the bound at the concrete two-element sample (0, 1). -/
theorem claim_C3_witness :
    2 ≤ ([0, 1] : List ℝ).length ∧
    ∃ h : ℝ, _shannon_entropy (fun _ => 0) [0, 1] 30 true = .ok (some h) ∧
      0 ≤ h ∧ h ≤ 1 :=
  ⟨by simp, claim_C3 [0, 1] (fun _ => 0) (by simp)⟩

/-- C4: for same-length inputs and a positive bin count, the code's
normalized mutual information agrees exactly with the specification
formula (H(x) + H(y) - H(x,y)) / H(x) over the marginal and joint
histogram entropies, returning NaN (not an error) when H(x) = 0; the
code's guard H(x) > 0 coincides with the spec's H(x) = 0 test because
entropies are nonnegative. -/
theorem claim_C4 (x y : List ℝ) (bins : ℕ) (hb : 1 ≤ bins)
    (hxy : x.length = y.length) :
    _mutual_information_norm x y bins = .ok (mutualInformationSpec x y bins) := by
  unfold _mutual_information_norm mutualInformationSpec
  rw [if_neg (by push_neg; exact ⟨by omega, hxy⟩)]
  by_cases hpos : 0 < Hcount (histogram x bins)
  · rw [if_pos hpos, if_neg hpos.ne']
  · have h0 : Hcount (histogram x bins) = 0 :=
      le_antisymm (not_lt.mp hpos) (Hcount_nonneg _)
    rw [if_neg hpos, if_pos h0]

/-- C4 witness: agreement at a concrete same-length pair with the default
30 bins. -/
theorem claim_C4_witness :
    1 ≤ 30 ∧ ([0, 1] : List ℝ).length = ([1, 0] : List ℝ).length ∧
    _mutual_information_norm [0, 1] [1, 0] 30 =
      .ok (mutualInformationSpec [0, 1] [1, 0] 30) :=
  ⟨by norm_num, rfl, claim_C4 [0, 1] [1, 0] 30 (by norm_num) rfl⟩

/-- C9 counterexample: at bins = 0 the entropy estimator does not return
NaN; np.histogram raises ValueError on a non-positive integer bin count,
modeled by the error value, so the claim that every bins below 2 yields
NaN without raising is false. -/
theorem claim_C9_counterexample :
    _shannon_entropy (fun _ => 0) [0, 1] 0 true = .error () := by
  simp only [_shannon_entropy]
  rw [if_true]

/-- C9 (amended): with normalize = true, bins = 1 returns NaN because the
normalization denominator log2(1) is zero, and it does so without
raising; bins = 0, however, raises ValueError inside np.histogram (the
error value) instead of returning NaN. -/
theorem claim_C9 (x : List ℝ) (noise : ℕ → ℝ) :
    _shannon_entropy noise x 1 true = .ok none ∧
    _shannon_entropy noise x 0 true = .error () := by
  constructor
  · simp only [_shannon_entropy]
    rw [if_true, histogram_length]
    have hlt : ¬ 0 < Real.logb 2 (((1 : ℕ) : ℕ) : ℝ) := by
      norm_num [Real.logb_one]
    rw [if_neg hlt]
    simp
  · simp only [_shannon_entropy]
    rw [if_true]

/-- C9 witness: the amended behavior at a concrete sample. -/
theorem claim_C9_witness :
    _shannon_entropy (fun _ => 0) [5] 1 true = .ok none ∧
    _shannon_entropy (fun _ => 0) [5] 0 true = .error () :=
  claim_C9 [5] (fun _ => 0)

lemma hurstSizes_16_32 : hurstSizes 16 32 = List.replicate 10 16 := by
  unfold hurstSizes
  have hval : ∀ i : ℕ, ⌊(10 : ℝ) ^ (Real.logb 10 (((16 : ℕ) : ℕ) : ℝ) +
      (i : ℝ) / 9 * (Real.logb 10 (((32 / 2 : ℕ) : ℕ) : ℝ) -
        Real.logb 10 (((16 : ℕ) : ℕ) : ℝ)))⌋ = 16 := by
    intro i
    rw [show ((32 / 2 : ℕ) : ℕ) = ((16 : ℕ) : ℕ) from by norm_num,
      sub_self, mul_zero, add_zero,
      Real.rpow_logb (by norm_num) (by norm_num) (by norm_num)]
    norm_num [Int.floor_natCast]
  refine List.eq_replicate_iff.mpr ⟨by simp, ?_⟩
  intro b hb
  simp only [List.mem_map, List.mem_range] at hb
  obtain ⟨i, _, rfl⟩ := hb
  exact hval i

lemma usedSizes_16_32 : usedSizes 16 32 = List.replicate 10 16 := by
  unfold usedSizes
  rw [hurstSizes_16_32]
  decide

lemma stdR_zero_of_all_zero {s : List ℝ} (hs : ∀ v ∈ s, v = 0) : stdR s = 0 := by
  have hsum : s.sum = 0 := List.sum_eq_zero hs
  have hmean : meanR s = 0 := by
    unfold meanR
    rw [hsum, zero_div]
  unfold stdR varR
  rw [hmean]
  have hzero : (s.map (fun v => (v - 0) ^ 2)).sum = 0 := by
    apply List.sum_eq_zero
    intro u hu
    simp only [List.mem_map] at hu
    obtain ⟨v, hv, rfl⟩ := hu
    rw [hs v hv]
    ring
  rw [hzero, zero_div, Real.sqrt_zero]

/-- C5: if every processed window size yields only segments of zero
standard deviation (so the loop collects no valid R/S value), the Hurst
estimator returns NaN (none) and raises no error. -/
theorem claim_C5 (x : List ℝ) (minw : ℕ)
    (hall : ∀ w ∈ usedSizes minw x.length,
      ∀ seg ∈ segments (center x) w.toNat, stdR seg = 0) :
    _hurst_exponent_rs x minw = none := by
  have hrs : rsPairs x minw = [] := by
    unfold rsPairs
    rw [List.filterMap_eq_nil_iff]
    intro w hw
    have hempty : rsVals (center x) w.toNat = [] := by
      unfold rsVals
      rw [List.filterMap_eq_nil_iff]
      intro seg hseg
      have h0 := hall w hw seg hseg
      have hns : ¬ (0 : ℝ) < stdR seg := by
        rw [h0]
        exact lt_irrefl 0
      rw [if_neg hns]
    rw [if_pos hempty]
  unfold _hurst_exponent_rs
  rw [if_pos hrs]

/-- C5 witness: the fully degenerate constant series of 32 zeros, with the
default minimum window 16, satisfies the hypothesis and maps to NaN. -/
theorem claim_C5_witness :
    (∀ w ∈ usedSizes 16 (List.replicate 32 (0:ℝ)).length,
      ∀ seg ∈ segments (center (List.replicate 32 (0:ℝ))) w.toNat, stdR seg = 0) ∧
    _hurst_exponent_rs (List.replicate 32 (0:ℝ)) 16 = none := by
  have hcenter : center (List.replicate 32 (0:ℝ)) = List.replicate 32 (0:ℝ) := by
    unfold center meanR
    simp
  have hall : ∀ w ∈ usedSizes 16 (List.replicate 32 (0:ℝ)).length,
      ∀ seg ∈ segments (center (List.replicate 32 (0:ℝ))) w.toNat, stdR seg = 0 := by
    intro w hw seg hseg
    apply stdR_zero_of_all_zero
    intro v hv
    rw [hcenter] at hseg
    unfold segments at hseg
    simp only [List.mem_map, List.mem_range] at hseg
    obtain ⟨i, _, rfl⟩ := hseg
    exact List.eq_of_mem_replicate
      (List.mem_of_mem_drop (List.mem_of_mem_take hv))
  exact ⟨hall, claim_C5 _ 16 hall⟩

/-- C6 counterexample: with the default minimum window 16 and a series of
length 32, the processed window sizes are ten copies of 16 - the code does
not deduplicate the floored logspace values, so the processed sizes are
not pairwise distinct, contradicting the claimed deduplication. -/
theorem claim_C6_counterexample : ¬ (usedSizes 16 32).Nodup := by
  rw [usedSizes_16_32]
  simp

/-- C6 (amended): the window sizes the R/S loop processes are exactly the
10 floored log-spaced integers between min_window and N/2 with sizes below
2 dropped, with multiplicity and in order - no deduplication happens, and
with min_window 16 and N = 32 the window 16 is processed ten times; no
size below 2 is ever processed. -/
theorem claim_C6 :
    (∀ minw N : ℕ, usedSizes minw N = (hurstSizes minw N).filter (fun w => 2 ≤ w)) ∧
    (∀ minw N : ℕ, ∀ w ∈ usedSizes minw N, (2:ℤ) ≤ w) ∧
    usedSizes 16 32 = List.replicate 10 16 := by
  refine ⟨fun _ _ => rfl, ?_, usedSizes_16_32⟩
  intro minw N w hw
  unfold usedSizes at hw
  simp only [List.mem_filter, decide_eq_true_eq] at hw
  exact hw.2

/-- C6 witness: 16 is among the processed sizes for the default
configuration on a 32-sample series, and every processed size is at
least 2. -/
theorem claim_C6_witness : (16:ℤ) ∈ usedSizes 16 32 ∧ (2:ℤ) ≤ 16 := by
  have hm : (16:ℤ) ∈ usedSizes 16 32 := by
    rw [usedSizes_16_32]
    simp
  exact ⟨hm, claim_C6.2.1 16 32 16 hm⟩

lemma shannon_entropy_isOk (noise : ℕ → ℝ) (x : List ℝ) (bins : ℕ) (hb : bins ≠ 0)
    (nrm : Bool) : ∃ v, _shannon_entropy noise x bins nrm = .ok v := by
  simp only [_shannon_entropy]
  rw [if_neg hb]
  cases nrm with
  | true =>
    rw [if_pos rfl]
    by_cases hpos : 0 < Real.logb 2
        (((histogram (if stdR x ≤ 1e-8 then addNoise noise 0 x else x) bins).length : ℕ) : ℝ)
    · rw [if_pos hpos]
      exact ⟨_, rfl⟩
    · rw [if_neg hpos]
      exact ⟨_, rfl⟩
  | false =>
    rw [if_neg (by simp)]
    exact ⟨_, rfl⟩

lemma mi_isOk {x y : List ℝ} {bins : ℕ} (hb : bins ≠ 0) (hl : x.length = y.length) :
    ∃ v, _mutual_information_norm x y bins = .ok v := by
  unfold _mutual_information_norm
  rw [if_neg (by push_neg; exact ⟨hb, hl⟩)]
  by_cases hpos : 0 < Hcount (histogram x bins)
  · rw [if_pos hpos]
    exact ⟨_, rfl⟩
  · rw [if_neg hpos]
    exact ⟨_, rfl⟩

lemma detect_some_hurst (noise : ℕ → ℝ) (r : List ℝ) (bins lag : ℕ) (hb : bins ≠ 0)
    (hl : (r.drop lag).length = (sliceToNeg r lag).length) :
    (detect_risk_factors noise r bins lag).map RiskResult.hurst =
      some (_hurst_exponent_rs r 16) := by
  obtain ⟨e, he⟩ := shannon_entropy_isOk noise r bins hb true
  obtain ⟨m, hm⟩ := mi_isOk hb hl
  unfold detect_risk_factors
  rw [he, hm]
  rfl

/-- C7 (amended): the entry point has exactly two optional configuration
parameters, the bin count and the mi lag: any produced result record
carries the entropy computed at the caller's bin count, the mutual
information computed at the caller's bin count and lag, and a hurst field
always computed with the minimum R/S window fixed at its default 16 - no
entry-point argument reaches the minimum-window parameter of the Hurst
estimator. -/
theorem claim_C7 (noise : ℕ → ℝ) (r : List ℝ) (bins lag : ℕ) (res : RiskResult)
    (h : detect_risk_factors noise r bins lag = some res) :
    _shannon_entropy noise r bins true = .ok res.entropy ∧
    _mutual_information_norm (r.drop lag) (sliceToNeg r lag) bins = .ok res.mi_norm ∧
    res.hurst = _hurst_exponent_rs r 16 := by
  unfold detect_risk_factors at h
  cases he : _shannon_entropy noise r bins true with
  | error u =>
    rw [he] at h
    simp at h
  | ok e =>
    cases hm : _mutual_information_norm (r.drop lag) (sliceToNeg r lag) bins with
    | error u =>
      rw [he, hm] at h
      simp at h
    | ok m =>
      rw [he, hm] at h
      have h2 : (⟨e, m, _hurst_exponent_rs r 16,
          riskFlagOf e m (_hurst_exponent_rs r 16)⟩ : RiskResult) = res :=
        Option.some.inj h
      rw [← h2]
      exact ⟨rfl, rfl, rfl⟩

lemma hurst_size_16_2_at6 :
    ⌊(10 : ℝ) ^ (Real.logb 10 (((16 : ℕ) : ℕ) : ℝ) +
      (((6 : ℕ) : ℕ) : ℝ) / 9 * (Real.logb 10 (((2 / 2 : ℕ) : ℕ) : ℝ) -
        Real.logb 10 (((16 : ℕ) : ℕ) : ℝ)))⌋ = 2 := by
  have h1 : Real.logb 10 (((2 / 2 : ℕ) : ℕ) : ℝ) = 0 := by
    norm_num
  have harg : Real.logb 10 (((16 : ℕ) : ℕ) : ℝ) +
      (((6 : ℕ) : ℕ) : ℝ) / 9 * (0 - Real.logb 10 (((16 : ℕ) : ℕ) : ℝ))
      = Real.logb 10 (((16 : ℕ) : ℕ) : ℝ) * (1/3) := by
    push_cast
    ring
  rw [h1, harg, Real.rpow_mul (by norm_num : (0:ℝ) ≤ 10),
    Real.rpow_logb (by norm_num) (by norm_num) (by norm_num)]
  have h16 : ((((16 : ℕ) : ℕ)) : ℝ) = (16 : ℝ) := by norm_num
  rw [h16]
  have hy : (0:ℝ) < (16:ℝ) ^ ((1:ℝ)/3) := Real.rpow_pos_of_pos (by norm_num) _
  have hcube : ((16:ℝ) ^ ((1:ℝ)/3)) ^ (3:ℕ) = 16 := by
    rw [← Real.rpow_natCast ((16:ℝ) ^ ((1:ℝ)/3)) 3,
      ← Real.rpow_mul (by norm_num : (0:ℝ) ≤ 16)]
    norm_num
  have hlow : (2:ℝ) ≤ (16:ℝ) ^ ((1:ℝ)/3) := by
    by_contra hlt
    push_neg at hlt
    have h3 : ((16:ℝ) ^ ((1:ℝ)/3)) ^ (3:ℕ) < (2:ℝ) ^ (3:ℕ) :=
      pow_lt_pow_left₀ hlt hy.le (by norm_num)
    rw [hcube] at h3
    norm_num at h3
  have hhigh : (16:ℝ) ^ ((1:ℝ)/3) < 3 := by
    by_contra hge
    push_neg at hge
    have h3 : (3:ℝ) ^ (3:ℕ) ≤ ((16:ℝ) ^ ((1:ℝ)/3)) ^ (3:ℕ) :=
      pow_le_pow_left₀ (by norm_num) hge 3
    rw [hcube] at h3
    norm_num at h3
  rw [Int.floor_eq_iff]
  constructor
  · push_cast
    exact hlow
  · push_cast
    linarith [hhigh]

lemma two_mem_usedSizes_16_2 : (2:ℤ) ∈ usedSizes 16 2 := by
  unfold usedSizes
  rw [List.mem_filter]
  constructor
  · unfold hurstSizes
    rw [List.mem_map]
    exact ⟨6, by simp, hurst_size_16_2_at6⟩
  · decide

lemma center_01 : center [(0:ℝ), 1] = [-(1/2), 1/2] := by
  unfold center meanR
  norm_num

lemma std_pm_half : 0 < stdR [-(1/2 : ℝ), 1/2] := by
  unfold stdR
  apply Real.sqrt_pos.mpr
  unfold varR meanR
  norm_num

lemma rsVals_center01_ne : rsVals (center [(0:ℝ), 1]) 2 ≠ [] := by
  rw [center_01]
  intro hnil
  unfold rsVals at hnil
  rw [List.filterMap_eq_nil_iff] at hnil
  have hmem : [-(1/2 : ℝ), 1/2] ∈ segments [-(1/2 : ℝ), 1/2] 2 := by
    unfold segments
    simp
  have hx := hnil _ hmem
  rw [if_pos std_pm_half] at hx
  simp at hx

lemma rsPairs_01_16_ne : rsPairs [(0:ℝ), 1] 16 ≠ [] := by
  intro hnil
  unfold rsPairs at hnil
  rw [List.filterMap_eq_nil_iff] at hnil
  have hmem : (2:ℤ) ∈ usedSizes 16 ([(0:ℝ), 1]).length := two_mem_usedSizes_16_2
  have h2 := hnil 2 hmem
  rw [if_neg (by simpa using rsVals_center01_ne)] at h2
  simp at h2

lemma hurst_01_16_ne : _hurst_exponent_rs [(0:ℝ), 1] 16 ≠ none := by
  unfold _hurst_exponent_rs
  rw [if_neg rsPairs_01_16_ne]
  simp

lemma hurstSizes_1_2 : hurstSizes 1 2 = List.replicate 10 1 := by
  unfold hurstSizes
  have hval : ∀ i : ℕ, ⌊(10 : ℝ) ^ (Real.logb 10 (((1 : ℕ) : ℕ) : ℝ) +
      (i : ℝ) / 9 * (Real.logb 10 (((2 / 2 : ℕ) : ℕ) : ℝ) -
        Real.logb 10 (((1 : ℕ) : ℕ) : ℝ)))⌋ = 1 := by
    intro i
    norm_num [Real.logb_one, Real.rpow_zero]
  refine List.eq_replicate_iff.mpr ⟨by simp, ?_⟩
  intro b hb
  simp only [List.mem_map, List.mem_range] at hb
  obtain ⟨i, _, rfl⟩ := hb
  exact hval i

lemma hurst_01_minw1 : _hurst_exponent_rs [(0:ℝ), 1] 1 = none := by
  have hused : usedSizes 1 ([(0:ℝ), 1]).length = [] := by
    show usedSizes 1 2 = []
    unfold usedSizes
    rw [hurstSizes_1_2]
    decide
  unfold _hurst_exponent_rs
  rw [if_pos]
  unfold rsPairs
  rw [hused]
  rfl

/-- C7 counterexample: varying both caller-suppliable parameters (bins,
mi lag) leaves the hurst field at the min_window = 16 behavior, while the
minimum window genuinely affects the estimator (min_window 1 gives NaN on
the two-point series, min_window 16 does not): the minimum R/S window is
not suppliable through the entry point, contradicting the claimed third
configuration parameter. -/
theorem claim_C7_counterexample :
    (detect_risk_factors (fun _ => 0) [0, 1] 30 1).map RiskResult.hurst =
      some (_hurst_exponent_rs [0, 1] 16) ∧
    (detect_risk_factors (fun _ => 0) [0, 1] 7 3).map RiskResult.hurst =
      some (_hurst_exponent_rs [0, 1] 16) ∧
    _hurst_exponent_rs [0, 1] 1 = none ∧
    _hurst_exponent_rs [0, 1] 16 ≠ none := by
  refine ⟨?_, ?_, hurst_01_minw1, hurst_01_16_ne⟩
  · exact detect_some_hurst (fun _ => 0) [0, 1] 30 1 (by norm_num) (by simp [sliceToNeg])
  · exact detect_some_hurst (fun _ => 0) [0, 1] 7 3 (by norm_num) (by simp [sliceToNeg])

/-- C7 witness: a successful call of the entry point whose hurst field is
the fixed min_window = 16 value. -/
theorem claim_C7_witness :
    ∃ res : RiskResult, detect_risk_factors (fun _ => 0) [0, 1] 30 1 = some res ∧
      res.hurst = _hurst_exponent_rs [0, 1] 16 := by
  have h := detect_some_hurst (fun _ => 0) [0, 1] 30 1 (by norm_num) (by simp [sliceToNeg])
  obtain ⟨res, hres, _⟩ := Option.map_eq_some'.mp h
  exact ⟨res, hres, (claim_C7 (fun _ => 0) [0, 1] 30 1 res hres).2.2⟩

/-- C10 counterexample: with mi_lag = 0 on a non-empty series the entry
point does not produce a result record with a NaN mutual-information
field; np.histogram2d receives a full-length first sample and an empty
second sample and raises (the call maps to none), so no record exists at
all. -/
theorem claim_C10_counterexample :
    detect_risk_factors (fun _ => 0) [1, 2, 3] 30 0 = none := by
  have herr : _mutual_information_norm (([1, 2, 3] : List ℝ).drop 0)
      (sliceToNeg [1, 2, 3] 0) 30 = .error () := by
    unfold _mutual_information_norm
    rw [if_pos (Or.inr (by simp [sliceToNeg]))]
  unfold detect_risk_factors
  cases _shannon_entropy (fun _ => 0) [1, 2, 3] 30 true with
  | error u =>
    rw [herr]
  | ok e =>
    rw [herr]

/-- C10 (amended): mi_lag = 0 does pass the full series as the first
mutual-information argument and the empty slice returns[:-0] as the
second; because np.histogram2d requires same-length samples, the call
raises on every non-empty series instead of returning a record, so no
flag (in particular neither blocked_flow nor structural_time_bomb) is
ever produced at lag 0. -/
theorem claim_C10 (noise : ℕ → ℝ) (r : List ℝ) (bins : ℕ) (hr : r ≠ []) :
    r.drop 0 = r ∧ sliceToNeg r 0 = [] ∧
    detect_risk_factors noise r bins 0 = none := by
  refine ⟨List.drop_zero r, by simp [sliceToNeg], ?_⟩
  have herr : _mutual_information_norm (r.drop 0) (sliceToNeg r 0) bins = .error () := by
    unfold _mutual_information_norm
    rw [if_pos (Or.inr ?_)]
    simp only [List.drop_zero, sliceToNeg, if_pos rfl, List.length_nil]
    intro h0
    exact hr (List.length_eq_zero.mp h0)
  unfold detect_risk_factors
  cases _shannon_entropy noise r bins true with
  | error u =>
    rw [herr]
  | ok e =>
    rw [herr]

/-- C10 witness: the amended behavior at a concrete non-empty series. -/
theorem claim_C10_witness :
    ([0, 5] : List ℝ) ≠ [] ∧
    detect_risk_factors (fun _ => 0) [0, 5] 30 0 = none :=
  ⟨List.cons_ne_nil _ _,
    (claim_C10 (fun _ => 0) [0, 5] 30 (List.cons_ne_nil _ _)).2.2⟩

lemma affine_mono {a : ℝ} (ha : 0 < a) (b : ℝ) : Monotone (fun v : ℝ => a * v + b) := by
  intro u v huv
  simp only
  have := mul_le_mul_of_nonneg_left huv ha.le
  linarith

lemma foldl_min_map (f : ℝ → ℝ) (hf : ∀ u v : ℝ, f (min u v) = min (f u) (f v))
    (l : List ℝ) (acc : ℝ) : (l.map f).foldl min (f acc) = f (l.foldl min acc) := by
  induction l generalizing acc with
  | nil => rfl
  | cons u t ih =>
    simp only [List.map_cons, List.foldl_cons]
    rw [← hf, ih]

lemma foldl_max_map (f : ℝ → ℝ) (hf : ∀ u v : ℝ, f (max u v) = max (f u) (f v))
    (l : List ℝ) (acc : ℝ) : (l.map f).foldl max (f acc) = f (l.foldl max acc) := by
  induction l generalizing acc with
  | nil => rfl
  | cons u t ih =>
    simp only [List.map_cons, List.foldl_cons]
    rw [← hf, ih]

lemma listMin_map_affine {a : ℝ} (ha : 0 < a) (b : ℝ) {x : List ℝ} (hx : x ≠ []) :
    listMin (x.map (fun v => a * v + b)) = a * listMin x + b := by
  cases x with
  | nil => cases hx rfl
  | cons v t =>
    unfold listMin
    simp only [List.map_cons]
    exact foldl_min_map (fun v => a * v + b) (fun u w => (affine_mono ha b).map_min) t v

lemma listMax_map_affine {a : ℝ} (ha : 0 < a) (b : ℝ) {x : List ℝ} (hx : x ≠ []) :
    listMax (x.map (fun v => a * v + b)) = a * listMax x + b := by
  cases x with
  | nil => cases hx rfl
  | cons v t =>
    unfold listMax
    simp only [List.map_cons]
    exact foldl_max_map (fun v => a * v + b) (fun u w => (affine_mono ha b).map_max) t v

lemma foldl_min_le (l : List ℝ) (acc : ℝ) :
    l.foldl min acc ≤ acc ∧ ∀ v ∈ l, l.foldl min acc ≤ v := by
  induction l generalizing acc with
  | nil => simp
  | cons u t ih =>
    constructor
    · exact ((ih (min acc u)).1).trans (min_le_left _ _)
    · intro v hv
      rcases List.mem_cons.mp hv with rfl | hvt
      · exact ((ih (min acc v)).1).trans (min_le_right _ _)
      · exact (ih (min acc u)).2 v hvt

lemma le_foldl_max (l : List ℝ) (acc : ℝ) :
    acc ≤ l.foldl max acc ∧ ∀ v ∈ l, v ≤ l.foldl max acc := by
  induction l generalizing acc with
  | nil => simp
  | cons u t ih =>
    constructor
    · exact (le_max_left _ _).trans (ih (max acc u)).1
    · intro v hv
      rcases List.mem_cons.mp hv with rfl | hvt
      · exact (le_max_right _ _).trans (ih (max acc v)).1
      · exact (ih (max acc u)).2 v hvt

lemma listMin_le_mem {x : List ℝ} {v : ℝ} (hv : v ∈ x) : listMin x ≤ v := by
  cases x with
  | nil => cases hv
  | cons u t =>
    unfold listMin
    rcases List.mem_cons.mp hv with rfl | hvt
    · exact (foldl_min_le t v).1
    · exact (foldl_min_le t u).2 v hvt

lemma mem_le_listMax {x : List ℝ} {v : ℝ} (hv : v ∈ x) : v ≤ listMax x := by
  cases x with
  | nil => cases hv
  | cons u t =>
    unfold listMax
    rcases List.mem_cons.mp hv with rfl | hvt
    · exact (le_foldl_max t v).1
    · exact (le_foldl_max t u).2 v hvt

lemma eq_listMin_of_min_eq_max {x : List ℝ} (h : listMin x = listMax x) {v : ℝ}
    (hv : v ∈ x) : v = listMin x :=
  le_antisymm (h ▸ mem_le_listMax hv) (listMin_le_mem hv)

lemma binIndex_affine {a : ℝ} (ha : a ≠ 0) (b lo hi v : ℝ) (bins : ℕ) :
    binIndex (a * lo + b) (a * hi + b) bins (a * v + b) = binIndex lo hi bins v := by
  unfold binIndex
  have h1 : a * v + b - (a * lo + b) = a * (v - lo) := by ring
  have h2 : a * hi + b - (a * lo + b) = a * (hi - lo) := by ring
  rw [h1, h2, mul_div_mul_left _ _ ha]

lemma binIndex_center (c : ℝ) (bins : ℕ) :
    binIndex (c - 1/2) (c + 1/2) bins c =
      min (Int.toNat ⌊(1/2 : ℝ) * (bins : ℝ)⌋) (bins - 1) := by
  unfold binIndex
  have h : (c - (c - 1/2)) / (c + 1/2 - (c - 1/2)) * (bins : ℝ)
      = (1/2 : ℝ) * (bins : ℝ) := by
    ring
  rw [h]

lemma binIndex_histEdges_map_affine {a : ℝ} (ha : 0 < a) (b : ℝ) {x : List ℝ}
    (bins : ℕ) {v : ℝ} (hv : v ∈ x) :
    binIndex (histEdges (x.map (fun u => a * u + b))).1
      (histEdges (x.map (fun u => a * u + b))).2 bins (a * v + b)
      = binIndex (histEdges x).1 (histEdges x).2 bins v := by
  have hx : x ≠ [] := by
    intro h
    subst h
    cases hv
  have hmin := listMin_map_affine ha b hx
  have hmax := listMax_map_affine ha b hx
  by_cases hconst : listMin x = listMax x
  · have hvmin : v = listMin x := eq_listMin_of_min_eq_max hconst hv
    have hmapconst : listMin (x.map (fun u => a * u + b)) =
        listMax (x.map (fun u => a * u + b)) := by
      rw [hmin, hmax, hconst]
    unfold histEdges
    rw [if_pos hconst, if_pos hmapconst, hmin, hvmin]
    exact (binIndex_center (a * listMin x + b) bins).trans
      (binIndex_center (listMin x) bins).symm
  · have hmapne : listMin (x.map (fun u => a * u + b)) ≠
        listMax (x.map (fun u => a * u + b)) := by
      rw [hmin, hmax]
      intro h
      apply hconst
      have h2 : a * listMin x = a * listMax x := by linarith
      exact mul_left_cancel₀ ha.ne' h2
    unfold histEdges
    rw [if_neg hconst, if_neg hmapne, hmin, hmax]
    exact binIndex_affine ha.ne' b _ _ v bins

lemma histogram_map_affine {a : ℝ} (ha : 0 < a) (b : ℝ) (x : List ℝ) (bins : ℕ) :
    histogram (x.map (fun v => a * v + b)) bins = histogram x bins := by
  unfold histogram
  apply List.map_congr_left
  intro k _
  rw [List.filter_map, List.length_map]
  congr 1
  apply List.filter_congr
  intro v hv
  simp only [Function.comp]
  rw [decide_eq_decide]
  rw [binIndex_histEdges_map_affine ha b bins hv]

lemma histogram2d_map_affine_left {a : ℝ} (ha : 0 < a) (b : ℝ) (x y : List ℝ)
    (bins : ℕ) :
    histogram2d (x.map (fun v => a * v + b)) y bins = histogram2d x y bins := by
  unfold histogram2d
  congr 1
  apply List.map_congr_left
  intro j _
  apply List.map_congr_left
  intro k _
  rw [List.zip_map_left, List.filter_map, List.length_map]
  congr 1
  apply List.filter_congr
  intro p hp
  have hp1 : p.1 ∈ x := (List.of_mem_zip (by rwa [show ((p.1, p.2) : ℝ × ℝ) = p from rfl])).1
  simp only [Function.comp, Prod.map_fst, Prod.map_snd, id_eq]
  rw [decide_eq_decide]
  rw [binIndex_histEdges_map_affine ha b bins hp1]

lemma histogram2d_map_affine_right {a : ℝ} (ha : 0 < a) (b : ℝ) (x y : List ℝ)
    (bins : ℕ) :
    histogram2d x (y.map (fun v => a * v + b)) bins = histogram2d x y bins := by
  unfold histogram2d
  congr 1
  apply List.map_congr_left
  intro j _
  apply List.map_congr_left
  intro k _
  rw [List.zip_map_right, List.filter_map, List.length_map]
  congr 1
  apply List.filter_congr
  intro p hp
  have hp2 : p.2 ∈ y := (List.of_mem_zip (by rwa [show ((p.1, p.2) : ℝ × ℝ) = p from rfl])).2
  simp only [Function.comp, Prod.map_fst, Prod.map_snd, id_eq]
  rw [decide_eq_decide]
  rw [binIndex_histEdges_map_affine ha b bins hp2]

/-- C8 (amended): the normalized mutual information is invariant under
affine transforms v to a * v + b with positive scale a > 0 applied to
either input series: range-relative binning makes bin occupancies equal.
For a negative scale the histogram orientation flips and values sitting
on interior bin boundaries change bucket, so invariance fails (see the
counterexample); the claim holds only for a > 0, not for every a not
equal to 0. -/
theorem claim_C8 (x y : List ℝ) (bins : ℕ) (a b : ℝ) (ha : 0 < a) :
    _mutual_information_norm (x.map (fun v => a * v + b)) y bins =
      _mutual_information_norm x y bins ∧
    _mutual_information_norm x (y.map (fun v => a * v + b)) bins =
      _mutual_information_norm x y bins := by
  constructor
  · unfold _mutual_information_norm
    rw [List.length_map, histogram_map_affine ha b x bins,
      histogram2d_map_affine_left ha b x y bins]
  · unfold _mutual_information_norm
    rw [List.length_map, histogram_map_affine ha b y bins,
      histogram2d_map_affine_right ha b x y bins]

lemma listMin_012 : listMin [(0:ℝ), 1, 2] = 0 := by
  unfold listMin
  norm_num [List.foldl_cons, List.foldl_nil, min_def]

lemma listMax_012 : listMax [(0:ℝ), 1, 2] = 2 := by
  unfold listMax
  norm_num [List.foldl_cons, List.foldl_nil, max_def]

lemma listMin_0m1m2 : listMin [(0:ℝ), -1, -2] = -2 := by
  unfold listMin
  norm_num [List.foldl_cons, List.foldl_nil, min_def]

lemma listMax_0m1m2 : listMax [(0:ℝ), -1, -2] = 0 := by
  unfold listMax
  norm_num [List.foldl_cons, List.foldl_nil, max_def]

lemma histEdges_012 : histEdges [(0:ℝ), 1, 2] = (0, 2) := by
  unfold histEdges
  rw [listMin_012, listMax_012]
  norm_num

lemma histEdges_0m1m2 : histEdges [(0:ℝ), -1, -2] = (-2, 0) := by
  unfold histEdges
  rw [listMin_0m1m2, listMax_0m1m2]
  norm_num

lemma bi012_0 : binIndex 0 2 2 (0:ℝ) = 0 := by
  unfold binIndex
  norm_num

lemma bi012_1 : binIndex 0 2 2 (1:ℝ) = 1 := by
  unfold binIndex
  norm_num

lemma bi012_2 : binIndex 0 2 2 (2:ℝ) = 1 := by
  unfold binIndex
  norm_num

lemma bim_0 : binIndex (-2) 0 2 (0:ℝ) = 1 := by
  unfold binIndex
  norm_num

lemma bim_m1 : binIndex (-2) 0 2 (-1:ℝ) = 1 := by
  unfold binIndex
  norm_num

lemma bim_m2 : binIndex (-2) 0 2 (-2:ℝ) = 0 := by
  unfold binIndex
  norm_num

lemma histogram_012 : histogram [(0:ℝ), 1, 2] 2 = [1, 2] := by
  unfold histogram
  rw [histEdges_012]
  simp only [show List.range 2 = [0, 1] from rfl, List.map_cons, List.map_nil]
  simp only [List.filter_cons, List.filter_nil, bi012_0, bi012_1, bi012_2]
  norm_num

lemma histogram_0m1m2 : histogram [(0:ℝ), -1, -2] 2 = [1, 2] := by
  unfold histogram
  rw [histEdges_0m1m2]
  simp only [show List.range 2 = [0, 1] from rfl, List.map_cons, List.map_nil]
  simp only [List.filter_cons, List.filter_nil, bim_0, bim_m1, bim_m2]
  norm_num

lemma histogram2d_012_012 :
    histogram2d [(0:ℝ), 1, 2] [(0:ℝ), 1, 2] 2 = [1, 0, 0, 2] := by
  unfold histogram2d
  rw [histEdges_012]
  simp only [show List.range 2 = [0, 1] from rfl, List.map_cons, List.map_nil,
    show ([(0:ℝ), 1, 2].zip [(0:ℝ), 1, 2]) = [(0, 0), (1, 1), (2, 2)] from rfl]
  simp only [List.filter_cons, List.filter_nil, bi012_0, bi012_1, bi012_2]
  norm_num

lemma histogram2d_0m1m2_012 :
    histogram2d [(0:ℝ), -1, -2] [(0:ℝ), 1, 2] 2 = [0, 1, 1, 1] := by
  unfold histogram2d
  rw [histEdges_0m1m2, histEdges_012]
  simp only [show List.range 2 = [0, 1] from rfl, List.map_cons, List.map_nil,
    show ([(0:ℝ), -1, -2].zip [(0:ℝ), 1, 2]) = [(0, 0), (-1, 1), (-2, 2)] from rfl]
  simp only [List.filter_cons, List.filter_nil, bi012_0, bi012_1, bi012_2,
    bim_0, bim_m1, bim_m2]
  norm_num

lemma logb2_3_gt_23 : (2:ℝ)/3 < Real.logb 2 3 := by
  rw [Real.lt_logb_iff_rpow_lt (by norm_num) (by norm_num)]
  have hy : (0:ℝ) < (2:ℝ) ^ ((2:ℝ)/3) := Real.rpow_pos_of_pos (by norm_num) _
  have hcube : ((2:ℝ) ^ ((2:ℝ)/3)) ^ (3:ℕ) = 4 := by
    rw [← Real.rpow_natCast ((2:ℝ) ^ ((2:ℝ)/3)) 3,
      ← Real.rpow_mul (by norm_num : (0:ℝ) ≤ 2)]
    rw [show ((2:ℝ)/3 * ((3:ℕ):ℝ)) = ((2:ℕ):ℝ) by push_cast; ring]
    rw [Real.rpow_natCast]
    norm_num
  by_contra hge
  push_neg at hge
  have h3 : (3:ℝ) ^ (3:ℕ) ≤ ((2:ℝ) ^ ((2:ℝ)/3)) ^ (3:ℕ) :=
    pow_le_pow_left₀ (by norm_num) hge 3
  rw [hcube] at h3
  norm_num at h3

lemma logb_two_thirds : Real.logb 2 ((2:ℝ)/3) = 1 - Real.logb 2 3 := by
  rw [Real.logb_div (by norm_num) (by norm_num), Real.logb_self_eq_one (by norm_num)]

lemma logb_one_third : Real.logb 2 ((1:ℝ)/3) = -Real.logb 2 3 := by
  rw [one_div, Real.logb_inv]

lemma Hcount_12 : Hcount [1, 2] = Real.logb 2 3 - 2/3 := by
  unfold Hcount
  norm_num
  rw [logb_two_thirds, logb_one_third]
  ring

lemma Hcount_1002 : Hcount [1, 0, 0, 2] = Real.logb 2 3 - 2/3 := by
  unfold Hcount
  norm_num
  rw [logb_two_thirds, logb_one_third]
  ring

lemma Hcount_0111 : Hcount [0, 1, 1, 1] = Real.logb 2 3 := by
  unfold Hcount
  norm_num
  rw [logb_one_third]
  ring

/-- C8 counterexample: for the negative-scale affine transform
t(v) = -1 * v + 0 (a = -1, which the claim allows since it only requires
a nonzero scale), the normalized mutual information changes: with
x = y = [0, 1, 2] and 2 bins, NMI(x, y) = 1 but NMI(t(x), y) differs,
because flipping orientation moves the boundary value 1 relative to the
histogram edges. -/
theorem claim_C8_counterexample :
    _mutual_information_norm (([0, 1, 2] : List ℝ).map (fun v => (-1) * v + 0))
      [0, 1, 2] 2 ≠ _mutual_information_norm [0, 1, 2] [0, 1, 2] 2 := by
  have hmap : ([0, 1, 2] : List ℝ).map (fun v => (-1) * v + 0) = [0, -1, -2] := by
    norm_num
  rw [hmap]
  have hL := logb2_3_gt_23
  have hpos : (0:ℝ) < Real.logb 2 3 - 2/3 := by linarith
  have hc1 : ¬ ((2:ℕ) = 0 ∨ ([0, -1, -2] : List ℝ).length ≠ ([0, 1, 2] : List ℝ).length) := by
    norm_num
  have hc2 : ¬ ((2:ℕ) = 0 ∨ ([0, 1, 2] : List ℝ).length ≠ ([0, 1, 2] : List ℝ).length) := by
    norm_num
  simp only [_mutual_information_norm]
  rw [if_neg hc1, if_neg hc2,
    histogram_012, histogram_0m1m2, histogram2d_012_012, histogram2d_0m1m2_012,
    Hcount_12, Hcount_1002, Hcount_0111]
  rw [if_pos hpos, if_pos hpos]
  intro heq
  have h1 := Option.some.inj (Except.ok.inj heq)
  have hden : Real.logb 2 3 - 2/3 ≠ 0 := by linarith
  rw [div_eq_div_iff hden hden] at h1
  have h2 := mul_right_cancel₀ hden h1
  linarith

/-- C8 witness: invariance at a concrete positive-scale transform. -/
theorem claim_C8_witness :
    (0:ℝ) < 2 ∧
    (_mutual_information_norm (([0, 1] : List ℝ).map (fun v => 2 * v + 5)) [1, 0] 30 =
        _mutual_information_norm [0, 1] [1, 0] 30 ∧
      _mutual_information_norm [0, 1] (([1, 0] : List ℝ).map (fun v => 2 * v + 5)) 30 =
        _mutual_information_norm [0, 1] [1, 0] 30) :=
  ⟨by norm_num, claim_C8 [0, 1] [1, 0] 30 2 5 (by norm_num)⟩

end RiskAnalysis
